import Mathlib

/-!
Verification of the electricity-board record keeper (`src/bot.py`).

The program stores three tables (clients, readings, bills) in sqlite and
offers registration, meter-reading entry, bill generation and a pandas
based consumption analysis.  This file is a shallow embedding: persistent
state is a `DB` value, each menu operation is a pure function on `DB`
returning the new state together with an optional error, and the sqlite
`REAL` columns are modelled by `ℚ`.
-/

namespace EBSys

/-! ### Byte order on strings

sqlite compares `TEXT` values with the `BINARY` collation, byte by byte
over the UTF-8 encoding; UTF-8 byte order coincides with code-point
order, so dates such as `YYYY-MM-DD` compare lexicographically by
code point. -/

/-- Lexicographic comparison of character lists by code point; this is
exactly the order sqlite `BINARY` collation gives on the corresponding
UTF-8 strings. -/
def strLeb : List Char → List Char → Bool
  | [], _ => true
  | _ :: _, [] => false
  | a :: as, b :: bs =>
    if a.toNat < b.toNat then true
    else if b.toNat < a.toNat then false
    else strLeb as bs

/-- The sqlite `BINARY` order on strings, as a proposition. -/
def strLe (a b : String) : Prop := strLeb a.data b.data = true

/-- Strict version of `strLe`. -/
def strLt (a b : String) : Prop := strLe a b ∧ a ≠ b

instance (a b : String) : Decidable (strLe a b) :=
  inferInstanceAs (Decidable (strLeb a.data b.data = true))

instance (a b : String) : Decidable (strLt a b) :=
  inferInstanceAs (Decidable (_ ∧ _))

/-- Totality of `strLeb`, packaged as a definition so the order
instances below can use it. -/
def strLebTotal : ∀ as bs : List Char, strLeb as bs = true ∨ strLeb bs as = true := by
  intro as
  induction as with
  | nil => intro bs; left; rfl
  | cons a as ih =>
    intro bs
    cases bs with
    | nil => right; rfl
    | cons b bs =>
      simp only [strLeb]
      rcases Nat.lt_trichotomy a.toNat b.toNat with h | h | h
      · left; rw [if_pos h]
      · rcases ih bs with h2 | h2
        · left; rw [if_neg (by omega), if_neg (by omega)]; exact h2
        · right; rw [if_neg (by omega), if_neg (by omega)]; exact h2
      · right; rw [if_pos h]

/-- Transitivity of `strLeb`, packaged as a definition so the order
instances below can use it. -/
def strLebTrans : ∀ as bs cs : List Char,
    strLeb as bs = true → strLeb bs cs = true → strLeb as cs = true := by
  intro as
  induction as with
  | nil => intro bs cs _ _; rfl
  | cons a as ih =>
    intro bs cs h₁ h₂
    cases bs with
    | nil => simp [strLeb] at h₁
    | cons b bs =>
      cases cs with
      | nil => simp [strLeb] at h₂
      | cons c cs =>
        simp only [strLeb] at h₁ h₂ ⊢
        rcases Nat.lt_trichotomy a.toNat b.toNat with hab | hab | hab
        · rcases Nat.lt_trichotomy b.toNat c.toNat with hbc | hbc | hbc
          · rw [if_pos (Nat.lt_trans hab hbc)]
          · rw [if_pos (hbc ▸ hab)]
          · rw [if_neg (by omega), if_pos hbc] at h₂
            simp at h₂
        · rcases Nat.lt_trichotomy b.toNat c.toNat with hbc | hbc | hbc
          · rw [if_pos (by omega)]
          · rw [if_neg (by omega), if_neg (by omega)] at h₁
            rw [if_neg (by omega), if_neg (by omega)] at h₂
            rw [if_neg (by omega), if_neg (by omega)]
            exact ih bs cs h₁ h₂
          · rw [if_neg (by omega), if_pos hbc] at h₂
            simp at h₂
        · rw [if_neg (by omega), if_pos hab] at h₁
          simp at h₁

/-! ### The Unicode digits matched by the validation regex

`validate_phone` runs `re.fullmatch` on the pattern of ten `\d`
atoms.  In Python 3 the `\d` class matches every character of Unicode
general category Nd, not only the ASCII digits.  The ranges below are
the full Nd category of Unicode 14.0, the database used by the
CPython 3.11 `re` module. -/

/-- The code-point ranges of Unicode general category Nd (Unicode 14.0). -/
def ndRanges : List (Nat × Nat) :=
  [(0x30, 0x39), (0x660, 0x669), (0x6F0, 0x6F9), (0x7C0, 0x7C9), (0x966, 0x96F),
   (0x9E6, 0x9EF), (0xA66, 0xA6F), (0xAE6, 0xAEF), (0xB66, 0xB6F), (0xBE6, 0xBEF),
   (0xC66, 0xC6F), (0xCE6, 0xCEF), (0xD66, 0xD6F), (0xDE6, 0xDEF), (0xE50, 0xE59),
   (0xED0, 0xED9), (0xF20, 0xF29), (0x1040, 0x1049), (0x1090, 0x1099), (0x17E0, 0x17E9),
   (0x1810, 0x1819), (0x1946, 0x194F), (0x19D0, 0x19D9), (0x1A80, 0x1A89), (0x1A90, 0x1A99),
   (0x1B50, 0x1B59), (0x1BB0, 0x1BB9), (0x1C40, 0x1C49), (0x1C50, 0x1C59), (0xA620, 0xA629),
   (0xA8D0, 0xA8D9), (0xA900, 0xA909), (0xA9D0, 0xA9D9), (0xA9F0, 0xA9F9), (0xAA50, 0xAA59),
   (0xABF0, 0xABF9), (0xFF10, 0xFF19), (0x104A0, 0x104A9), (0x10D30, 0x10D39),
   (0x11066, 0x1106F), (0x110F0, 0x110F9), (0x11136, 0x1113F), (0x111D0, 0x111D9),
   (0x112F0, 0x112F9), (0x11450, 0x11459), (0x114D0, 0x114D9), (0x11650, 0x11659),
   (0x116C0, 0x116C9), (0x11730, 0x11739), (0x118E0, 0x118E9), (0x11950, 0x11959),
   (0x11C50, 0x11C59), (0x11D50, 0x11D59), (0x11DA0, 0x11DA9), (0x16A60, 0x16A69),
   (0x16AC0, 0x16AC9), (0x16B50, 0x16B59), (0x1D7CE, 0x1D7FF), (0x1E140, 0x1E149),
   (0x1E2F0, 0x1E2F9), (0x1E950, 0x1E959), (0x1FBF0, 0x1FBF9)]

/-- A character matched by the Python regex class `\d`. -/
def isPyDigit (c : Char) : Bool :=
  ndRanges.any (fun p => decide (p.1 ≤ c.toNat) && decide (c.toNat ≤ p.2))

/-! ### A small regular-expression engine

`validate_phone` delegates to `re.fullmatch`; the matcher below (by
Brzozowski derivatives) is the embedding of that call for the pattern
in the source. -/

/-- Regular expressions over characters, with character classes. -/
inductive Regex where
  | emp : Regex
  | eps : Regex
  | cls : (Char → Bool) → Regex
  | alt : Regex → Regex → Regex
  | seq : Regex → Regex → Regex

/-- Does the expression accept the empty string? -/
def Regex.nullable : Regex → Bool
  | .emp => false
  | .eps => true
  | .cls _ => false
  | .alt r₁ r₂ => r₁.nullable || r₂.nullable
  | .seq r₁ r₂ => r₁.nullable && r₂.nullable

/-- Brzozowski derivative of an expression by one character. -/
def Regex.deriv : Regex → Char → Regex
  | .emp, _ => .emp
  | .eps, _ => .emp
  | .cls p, c => if p c then .eps else .emp
  | .alt r₁ r₂, c => .alt (r₁.deriv c) (r₂.deriv c)
  | .seq r₁ r₂, c =>
    if r₁.nullable then .alt (.seq (r₁.deriv c) r₂) (r₂.deriv c)
    else .seq (r₁.deriv c) r₂

/-- Anchored match of the whole character list, like `re.fullmatch`. -/
def Regex.fullmatch : Regex → List Char → Bool
  | r, [] => r.nullable
  | r, c :: s => (r.deriv c).fullmatch s

/-- The language of a regular expression. -/
inductive Regex.Accepts : Regex → List Char → Prop where
  | eps : Regex.Accepts .eps []
  | cls {p : Char → Bool} {c : Char} : p c = true → Regex.Accepts (.cls p) [c]
  | altL {r₁ r₂ : Regex} {s : List Char} : Regex.Accepts r₁ s → Regex.Accepts (.alt r₁ r₂) s
  | altR {r₁ r₂ : Regex} {s : List Char} : Regex.Accepts r₂ s → Regex.Accepts (.alt r₁ r₂) s
  | seq {r₁ r₂ : Regex} {s₁ s₂ : List Char} :
      Regex.Accepts r₁ s₁ → Regex.Accepts r₂ s₂ → Regex.Accepts (.seq r₁ r₂) (s₁ ++ s₂)

/-- `n`-fold repetition, the meaning of the bounded quantifier in the
pattern of the source. -/
def Regex.repn (r : Regex) : Nat → Regex
  | 0 => .eps
  | n + 1 => .seq r (Regex.repn r n)

/-- The pattern of the source, ten Python digit atoms. -/
def phonePattern : Regex := Regex.repn (.cls isPyDigit) 10

/-- Embeds `validate_phone` of `src/bot.py`: a full match of the phone
string against the ten-digit pattern. -/
def validate_phone (phone : String) : Bool :=
  phonePattern.fullmatch phone.data

/-! ### Data model

One record type per sqlite table, plus the store itself.  The
`AUTOINCREMENT` columns are modelled by the `next…Id` counters, which
start at 1 as in sqlite. -/

/-- A row of the `clients` table. -/
structure Client where
  id : Nat
  name : String
  meter_no : String
  address : String
  phone : String
deriving DecidableEq

/-- A row of the `readings` table. -/
structure Reading where
  id : Nat
  client_id : Nat
  date : String
  reading : ℚ
deriving DecidableEq

/-- A row of the `bills` table. -/
structure Bill where
  id : Nat
  client_id : Nat
  start_date : String
  end_date : String
  units : ℚ
  amount : ℚ
  status : String
deriving DecidableEq

/-- The persistent store: the three tables of `eb_system.db`. -/
structure DB where
  clients : List Client
  readings : List Reading
  bills : List Bill
  nextClientId : Nat
  nextReadingId : Nat
  nextBillId : Nat
deriving DecidableEq

/-- The store right after `create_tables`: three empty tables. -/
def initDB : DB := ⟨[], [], [], 1, 1, 1⟩

/-- The error kinds of the specification. -/
inductive EBError where
  | validationError
  | conflictError
  | notFoundError
  | insufficientDataError
deriving DecidableEq

/-! ### Record operations -/

/-- Embeds `add_client`: the phone is validated first (the re-prompt
loop of the source is modelled as rejecting the offered phone), then
the insert either hits the `UNIQUE` constraint on `meter_no` (sqlite
raises `IntegrityError`, the row is not inserted) or succeeds. -/
def add_client (db : DB) (name meter address phone : String) : DB × Option EBError :=
  if validate_phone phone = true then
    if db.clients.any (fun c => c.meter_no == meter) then
      (db, some EBError.conflictError)
    else
      ({ db with
          clients := db.clients ++ [⟨db.nextClientId, name, meter, address, phone⟩],
          nextClientId := db.nextClientId + 1 }, none)
  else (db, some EBError.validationError)

/-- ASCII case folding, the part of Python `str.lower` relevant to the
comparison with the literal answer `'y'` in `remove_client`. -/
def pyLower (s : String) : String := ⟨s.data.map Char.toLower⟩

/-- Embeds `remove_client`: a lookup by id, then, after the lowercased
confirmation answer equals `'y'`, `DELETE FROM clients WHERE id=?`. -/
def remove_client (db : DB) (cid : Nat) (confirm : String) : DB × Option EBError :=
  if db.clients.any (fun c => c.id == cid) then
    if pyLower confirm = "y" then
      ({ db with clients := db.clients.filter (fun c => c.id != cid) }, none)
    else (db, none)
  else (db, some EBError.notFoundError)

/-- Embeds `add_reading`: an unconditional insert. -/
def add_reading (db : DB) (cid : Nat) (date : String) (value : ℚ) : DB :=
  { db with
      readings := db.readings ++ [⟨db.nextReadingId, cid, date, value⟩],
      nextReadingId := db.nextReadingId + 1 }

/-- Date order on reading rows, used by `ORDER BY r.date`. -/
def readingDateLe (r₁ r₂ : Reading) : Prop := strLe r₁.date r₂.date

instance : DecidableRel readingDateLe :=
  fun a b => inferInstanceAs (Decidable (strLe a.date b.date))

instance : IsTotal Reading readingDateLe :=
  ⟨fun a b => strLebTotal a.date.data b.date.data⟩

instance : IsTrans Reading readingDateLe :=
  ⟨fun _ _ _ h₁ h₂ => strLebTrans _ _ _ h₁ h₂⟩

/-- The query of `generate_bill`: readings of the client with date in
`[startDate, endDate]` (sqlite `BETWEEN` on `TEXT`), ordered ascending
by date, projected to the metered value. -/
def matchingReadings (db : DB) (cid : Nat) (startDate endDate : String) : List ℚ :=
  ((db.readings.filter (fun r =>
      r.client_id == cid && strLeb startDate.data r.date.data
        && strLeb r.date.data endDate.data)).insertionSort readingDateLe).map
    (fun r => r.reading)

/-- Round an integer-scaled value half to even, as `np.round` does. -/
def roundHalfEven (q : ℚ) : ℤ :=
  if q - ⌊q⌋ < 1 / 2 then ⌊q⌋
  else if 1 / 2 < q - ⌊q⌋ then ⌊q⌋ + 1
  else if ⌊q⌋ % 2 = 0 then ⌊q⌋ else ⌊q⌋ + 1

/-- `np.round(x, 2)`: round to two decimal places, half to even. -/
def round2 (q : ℚ) : ℚ := (roundHalfEven (q * 100) : ℚ) / 100

/-- The fixed billing rate of the source. -/
def rate : ℚ := 5

/-- Embeds `generate_bill`: with fewer than two matching readings the
operation aborts and inserts nothing; otherwise units are last minus
first reading rounded to two decimals, the amount is units times the
fixed rate rounded to two decimals, and the bill is persisted with
status `Unpaid`. -/
def generate_bill (db : DB) (cid : Nat) (startDate endDate : String) : DB × Option EBError :=
  match matchingReadings db cid startDate endDate with
  | [] => (db, some EBError.insufficientDataError)
  | [_] => (db, some EBError.insufficientDataError)
  | a :: b :: t =>
    let units := round2 ((a :: b :: t).getLast (List.cons_ne_nil a (b :: t)) - a)
    let amount := round2 (units * rate)
    ({ db with
        bills := db.bills ++
          [⟨db.nextBillId, cid, startDate, endDate, units, amount, "Unpaid"⟩],
        nextBillId := db.nextBillId + 1 }, none)

/-! ### Reports -/

/-- A row of the `view_readings` report. -/
structure RRow where
  rid : Nat
  name : String
  date : String
  value : ℚ
deriving DecidableEq

/-- Date order on report rows, used by `ORDER BY r.date`. -/
def rrowDateLe (a b : RRow) : Prop := strLe a.date b.date

instance : DecidableRel rrowDateLe :=
  fun a b => inferInstanceAs (Decidable (strLe a.date b.date))

instance : IsTotal RRow rrowDateLe :=
  ⟨fun a b => strLebTotal a.date.data b.date.data⟩

instance : IsTrans RRow rrowDateLe :=
  ⟨fun _ _ _ h₁ h₂ => strLebTrans _ _ _ h₁ h₂⟩

/-- The inner join of `view_readings`: one row per reading and matching
client. -/
def readingRows (db : DB) : List RRow :=
  db.readings.flatMap (fun r =>
    (db.clients.filter (fun c => c.id == r.client_id)).map
      (fun c => ⟨r.id, c.name, r.date, r.reading⟩))

/-- Embeds `view_readings`: the readings joined with the client name,
ordered ascending by date. -/
def view_readings (db : DB) : List RRow :=
  (readingRows db).insertionSort rrowDateLe

/-! ### Analysis -/

/-- A row of the data frame `show_analysis` builds: client name with
the units and amount of one bill. -/
structure BillRow where
  name : String
  units : ℚ
  amount : ℚ
deriving DecidableEq

/-- The inner join of `show_analysis`: one row per bill and matching
client. -/
def billRows (db : DB) : List BillRow :=
  db.bills.flatMap (fun b =>
    (db.clients.filter (fun c => c.id == b.client_id)).map
      (fun c => ⟨c.name, b.units, b.amount⟩))

/-- Name order on strings for the pandas `groupby`, which sorts the
group keys ascending. -/
def nameLe (a b : String) : Prop := strLe a b

instance : DecidableRel nameLe :=
  fun a b => inferInstanceAs (Decidable (strLe a b))

instance : IsTotal String nameLe :=
  ⟨fun a b => strLebTotal a.data b.data⟩

instance : IsTrans String nameLe :=
  ⟨fun _ _ _ h₁ h₂ => strLebTrans _ _ _ h₁ h₂⟩

/-- The group keys of `groupby("name")`: the distinct client names of
the joined rows, ascending. -/
def groupNames (rows : List BillRow) : List String :=
  ((rows.map (fun r => r.name)).dedup).insertionSort nameLe

/-- The units total of one name group. -/
def groupSum (rows : List BillRow) (n : String) : ℚ :=
  ((rows.filter (fun r => r.name == n)).map (fun r => r.units)).sum

/-- Order on the grouped pairs by summed units, the sort key of
`sort_values`. -/
def sumLe (p q : String × ℚ) : Prop := p.2 ≤ q.2

instance : DecidableRel sumLe :=
  fun a b => inferInstanceAs (Decidable (a.2 ≤ b.2))

instance : IsTotal (String × ℚ) sumLe :=
  ⟨fun a b => le_total a.2 b.2⟩

instance : IsTrans (String × ℚ) sumLe :=
  ⟨fun _ _ _ h₁ h₂ => le_trans h₁ h₂⟩

/-- The summed series of `groupby("name")["units"].sum()`: one pair
per group key, in ascending key order. -/
def groupPairs (rows : List BillRow) : List (String × ℚ) :=
  (groupNames rows).map (fun n => (n, groupSum rows n))

/-- Embeds `.sort_values(ascending=False).head(5)` on the summed
series: pandas argsorts the series ascending (a stable sort at the
sizes involved here) and reverses the resulting indexer, so ties end
up in the reverse of the ascending-name group order; the first five
pairs are kept. -/
def topConsumersList (rows : List BillRow) : List (String × ℚ) :=
  (((groupPairs rows).insertionSort sumLe).reverse).take 5

/-- The figures printed by `show_analysis`. -/
structure Analysis where
  totalUnits : ℚ
  totalAmount : ℚ
  avgUnits : ℚ
  maxUnits : ℚ
  topConsumers : List (String × ℚ)
deriving DecidableEq

/-- Embeds `show_analysis`: on an empty joined frame it reports no
data; otherwise the sum, sum, mean and max of the joined columns and
the top-consumer list. -/
def show_analysis (db : DB) : Option Analysis :=
  match billRows db with
  | [] => none
  | r :: rest =>
    some
      { totalUnits := ((r :: rest).map (fun x => x.units)).sum
        totalAmount := ((r :: rest).map (fun x => x.amount)).sum
        avgUnits := ((r :: rest).map (fun x => x.units)).sum /
          (((r :: rest).map (fun x => x.units)).length : ℚ)
        maxUnits := (rest.map (fun x => x.units)).foldl max r.units
        topConsumers := topConsumersList (r :: rest) }

/-! ### Reachable stores

The states the menu loop can produce from a fresh database; the view
operations do not change the store. -/

/-- Stores reachable by the state-changing menu operations. -/
inductive Reachable : DB → Prop where
  | init : Reachable initDB
  | addClient (db : DB) (n m a p : String) :
      Reachable db → Reachable (add_client db n m a p).1
  | removeClient (db : DB) (cid : Nat) (confirm : String) :
      Reachable db → Reachable (remove_client db cid confirm).1
  | addReading (db : DB) (cid : Nat) (d : String) (v : ℚ) :
      Reachable db → Reachable (add_reading db cid d v)
  | generateBill (db : DB) (cid : Nat) (sd ed : String) :
      Reachable db → Reachable (generate_bill db cid sd ed).1

/-! ### Orders used to state the top-consumer result -/

/-- Ascending order by summed units with ties ascending by name. -/
def lexAsc (p q : String × ℚ) : Prop := p.2 < q.2 ∨ (p.2 = q.2 ∧ strLt p.1 q.1)

/-- Descending order by summed units with ties descending by name. -/
def lexDesc (p q : String × ℚ) : Prop := q.2 < p.2 ∨ (q.2 = p.2 ∧ strLt q.1 p.1)

end EBSys

namespace EBSys

/-! ## Correctness of the regular-expression engine -/

/-- Inversion for the empty expression. -/
theorem Regex.accepts_emp_iff {s : List Char} : Regex.emp.Accepts s ↔ False := by
  constructor
  · intro h; cases h
  · intro h; exact h.elim

/-- Inversion for the empty-string expression. -/
theorem Regex.accepts_eps_iff {s : List Char} : Regex.eps.Accepts s ↔ s = [] := by
  constructor
  · intro h; cases h; rfl
  · rintro rfl; exact Regex.Accepts.eps

/-- Inversion for character classes. -/
theorem Regex.accepts_cls_iff {p : Char → Bool} {s : List Char} :
    (Regex.cls p).Accepts s ↔ ∃ c, s = [c] ∧ p c = true := by
  constructor
  · intro h; cases h with | cls hp => exact ⟨_, rfl, hp⟩
  · rintro ⟨c, rfl, hp⟩; exact Regex.Accepts.cls hp

/-- Inversion for alternation. -/
theorem Regex.accepts_alt_iff {r₁ r₂ : Regex} {s : List Char} :
    (Regex.alt r₁ r₂).Accepts s ↔ r₁.Accepts s ∨ r₂.Accepts s := by
  constructor
  · intro h
    cases h with
    | altL h => exact Or.inl h
    | altR h => exact Or.inr h
  · rintro (h | h)
    · exact Regex.Accepts.altL h
    · exact Regex.Accepts.altR h

/-- Inversion for concatenation. -/
theorem Regex.accepts_seq_iff {r₁ r₂ : Regex} {s : List Char} :
    (Regex.seq r₁ r₂).Accepts s ↔ ∃ s₁ s₂, s = s₁ ++ s₂ ∧ r₁.Accepts s₁ ∧ r₂.Accepts s₂ := by
  constructor
  · intro h; cases h with | seq h₁ h₂ => exact ⟨_, _, rfl, h₁, h₂⟩
  · rintro ⟨s₁, s₂, rfl, h₁, h₂⟩; exact Regex.Accepts.seq h₁ h₂

/-- The nullability test decides acceptance of the empty string. -/
theorem Regex.nullable_iff (r : Regex) : r.nullable = true ↔ r.Accepts [] := by
  induction r with
  | emp => simp [Regex.nullable, Regex.accepts_emp_iff]
  | eps => simp [Regex.nullable, Regex.accepts_eps_iff]
  | cls p => simp [Regex.nullable, Regex.accepts_cls_iff]
  | alt r₁ r₂ ih₁ ih₂ => simp [Regex.nullable, Regex.accepts_alt_iff, ih₁, ih₂]
  | seq r₁ r₂ ih₁ ih₂ =>
    simp only [Regex.nullable, Bool.and_eq_true, Regex.accepts_seq_iff, ih₁, ih₂]
    constructor
    · rintro ⟨h₁, h₂⟩; exact ⟨[], [], rfl, h₁, h₂⟩
    · rintro ⟨s₁, s₂, he, h₁, h₂⟩
      rcases List.append_eq_nil.mp he.symm with ⟨rfl, rfl⟩
      exact ⟨h₁, h₂⟩

/-- The derivative computes quotients of the language. -/
theorem Regex.deriv_accepts_iff (r : Regex) (c : Char) :
    ∀ s : List Char, (r.deriv c).Accepts s ↔ r.Accepts (c :: s) := by
  induction r with
  | emp => intro s; simp [Regex.deriv, Regex.accepts_emp_iff]
  | eps =>
    intro s
    simp [Regex.deriv, Regex.accepts_emp_iff, Regex.accepts_eps_iff]
  | cls p =>
    intro s
    by_cases hp : p c = true
    · rw [show (Regex.cls p).deriv c = Regex.eps from by simp [Regex.deriv, hp]]
      rw [Regex.accepts_eps_iff, Regex.accepts_cls_iff]
      constructor
      · rintro rfl; exact ⟨c, rfl, hp⟩
      · rintro ⟨d, hd, _⟩
        exact (List.cons.inj hd).2
    · rw [show (Regex.cls p).deriv c = Regex.emp from by simp [Regex.deriv, hp]]
      rw [Regex.accepts_emp_iff, Regex.accepts_cls_iff]
      simp only [false_iff, not_exists, not_and]
      rintro d hd
      rcases List.cons.inj hd with ⟨rfl, rfl⟩
      exact fun hc => hp hc
  | alt r₁ r₂ ih₁ ih₂ =>
    intro s
    simp [Regex.deriv, Regex.accepts_alt_iff, ih₁, ih₂]
  | seq r₁ r₂ ih₁ ih₂ =>
    intro s
    by_cases hn : r₁.nullable = true
    · rw [show (Regex.seq r₁ r₂).deriv c = Regex.alt (.seq (r₁.deriv c) r₂) (r₂.deriv c) from by
        simp [Regex.deriv, hn]]
      rw [Regex.accepts_alt_iff]
      simp only [Regex.accepts_seq_iff]
      constructor
      · rintro (⟨s₁, s₂, rfl, h₁, h₂⟩ | h)
        · exact ⟨c :: s₁, s₂, rfl, (ih₁ s₁).mp h₁, h₂⟩
        · exact ⟨[], c :: s, rfl, (Regex.nullable_iff r₁).mp hn, (ih₂ s).mp h⟩
      · rintro ⟨s₁, s₂, he, h₁, h₂⟩
        cases s₁ with
        | nil =>
          right
          have he2 : c :: s = s₂ := by simpa using he
          exact (ih₂ s).mpr (he2 ▸ h₂)
        | cons d s₁ =>
          left
          have he2 : c = d ∧ s = s₁ ++ s₂ := by simpa using he
          rcases he2 with ⟨rfl, rfl⟩
          exact ⟨s₁, s₂, rfl, (ih₁ s₁).mpr h₁, h₂⟩
    · rw [show (Regex.seq r₁ r₂).deriv c = Regex.seq (r₁.deriv c) r₂ from by
        simp [Regex.deriv, hn]]
      simp only [Regex.accepts_seq_iff]
      constructor
      · rintro ⟨s₁, s₂, rfl, h₁, h₂⟩
        exact ⟨c :: s₁, s₂, rfl, (ih₁ s₁).mp h₁, h₂⟩
      · rintro ⟨s₁, s₂, he, h₁, h₂⟩
        cases s₁ with
        | nil => exact absurd ((Regex.nullable_iff r₁).mpr h₁) (by simpa using hn)
        | cons d s₁ =>
          have he2 : c = d ∧ s = s₁ ++ s₂ := by simpa using he
          rcases he2 with ⟨rfl, rfl⟩
          exact ⟨s₁, s₂, rfl, (ih₁ s₁).mpr h₁, h₂⟩

/-- The anchored matcher decides the language. -/
theorem Regex.fullmatch_iff : ∀ (s : List Char) (r : Regex),
    r.fullmatch s = true ↔ r.Accepts s := by
  intro s
  induction s with
  | nil => intro r; simpa [Regex.fullmatch] using Regex.nullable_iff r
  | cons c s ih =>
    intro r
    rw [show Regex.fullmatch r (c :: s) = (r.deriv c).fullmatch s from rfl, ih]
    exact Regex.deriv_accepts_iff r c s

/-- Words of the `n`-fold repetition of a class: exactly the words of
length `n` all of whose characters are in the class. -/
theorem Regex.repn_cls_accepts (p : Char → Bool) : ∀ (n : Nat) (s : List Char),
    (Regex.repn (.cls p) n).Accepts s ↔ s.length = n ∧ ∀ c ∈ s, p c = true := by
  intro n
  induction n with
  | zero =>
    intro s
    simp only [Regex.repn, Regex.accepts_eps_iff, List.length_eq_zero]
    constructor
    · rintro rfl; simp
    · rintro ⟨rfl, _⟩; rfl
  | succ n ih =>
    intro s
    rw [Regex.repn, Regex.accepts_seq_iff]
    constructor
    · rintro ⟨s₁, s₂, rfl, h₁, h₂⟩
      rcases Regex.accepts_cls_iff.mp h₁ with ⟨c, rfl, hc⟩
      rcases (ih s₂).mp h₂ with ⟨hl, hall⟩
      refine ⟨by simp [hl], ?_⟩
      intro d hd
      rcases List.mem_cons.mp (by simpa using hd) with rfl | hd2
      · exact hc
      · exact hall d hd2
    · rintro ⟨hl, hall⟩
      cases s with
      | nil => simp at hl
      | cons c s =>
        refine ⟨[c], s, rfl, Regex.Accepts.cls (hall c (List.mem_cons_self c s)), ?_⟩
        exact (ih s).mpr ⟨by simpa using hl, fun d hd => hall d (List.mem_cons_of_mem c hd)⟩

/-- Characterisation of the phone validation: exactly ten characters of
the Python digit class. -/
theorem validate_phone_iff (s : String) :
    validate_phone s = true ↔ s.data.length = 10 ∧ ∀ c ∈ s.data, isPyDigit c = true := by
  rw [show validate_phone s = phonePattern.fullmatch s.data from rfl,
    Regex.fullmatch_iff s.data phonePattern]
  exact Regex.repn_cls_accepts isPyDigit 10 s.data

/-! ## Rounding -/

/-- `roundHalfEven` fixes integers. -/
theorem roundHalfEven_intCast (n : ℤ) : roundHalfEven (n : ℚ) = n := by
  rw [roundHalfEven, Int.floor_intCast]
  norm_num

/-- `round2` at a value whose hundredfold is an integer. -/
theorem round2_eq (q : ℚ) (n : ℤ) (h : q * 100 = (n : ℚ)) : round2 q = (n : ℚ) / 100 := by
  rw [round2, h, roundHalfEven_intCast]

/-! ## Folded maxima -/

/-- The folded maximum is attained in the list. -/
theorem foldl_max_mem {α : Type} [LinearOrder α] (a : α) (l : List α) :
    l.foldl max a ∈ a :: l := by
  induction l generalizing a with
  | nil => simp
  | cons b t ih =>
    rw [List.foldl_cons]
    rcases List.mem_cons.mp (ih (max a b)) with h | h
    · rcases max_choice a b with h2 | h2
      · exact List.mem_cons.mpr (Or.inl (h.trans h2))
      · exact List.mem_cons.mpr (Or.inr (List.mem_cons.mpr (Or.inl (h.trans h2))))
    · exact List.mem_cons.mpr (Or.inr (List.mem_cons.mpr (Or.inr h)))

/-- The folded maximum bounds the seed and every element. -/
theorem le_foldl_max {α : Type} [LinearOrder α] (a : α) (l : List α) :
    ∀ x ∈ a :: l, x ≤ l.foldl max a := by
  induction l generalizing a with
  | nil => intro x hx; simp at hx; simp [hx]
  | cons b t ih =>
    intro x hx
    rw [List.foldl_cons]
    rcases List.mem_cons.mp hx with rfl | hx2
    · exact le_trans (le_max_left x b) (ih (max x b) (max x b) (List.mem_cons_self _ _))
    · rcases List.mem_cons.mp hx2 with rfl | hx3
      · exact le_trans (le_max_right a x) (ih (max a x) (max a x) (List.mem_cons_self _ _))
      · exact ih (max a b) x (List.mem_cons.mpr (Or.inr hx3))

/-! ## The joined bill frame under a total join -/

/-- The frame built from a list of bills, when each has exactly one
matching client, carries exactly the units and amounts of the bills. -/
theorem flatMap_bill_pairs (cs : List Client) : ∀ bs : List Bill,
    (∀ b ∈ bs, (cs.filter (fun c => c.id == b.client_id)).length = 1) →
    ((bs.flatMap (fun b =>
        (cs.filter (fun c => c.id == b.client_id)).map
          (fun c => BillRow.mk c.name b.units b.amount))).map (fun r => (r.units, r.amount))) =
      bs.map (fun b => (b.units, b.amount)) := by
  intro bs
  induction bs with
  | nil => intro _; rfl
  | cons b t ih =>
    intro hj
    rw [List.flatMap_cons, List.map_append, ih (fun x hx => hj x (List.mem_cons_of_mem b hx)),
      List.map_cons]
    rcases List.length_eq_one.mp (hj b (List.mem_cons_self b t)) with ⟨c, hc⟩
    rw [hc]
    rfl

/-- When every bill has exactly one matching client, the joined frame
carries exactly the units and amounts of the bills, in order. -/
theorem billRows_pairs (db : DB)
    (hj : ∀ b ∈ db.bills, (db.clients.filter (fun c => c.id == b.client_id)).length = 1) :
    (billRows db).map (fun r => (r.units, r.amount)) =
      db.bills.map (fun b => (b.units, b.amount)) := by
  rw [billRows]
  exact flatMap_bill_pairs db.clients db.bills hj

end EBSys

namespace EBSys

/-! ## The top-consumer list -/

/-- The group keys are distinct. -/
theorem groupNames_nodup (rows : List BillRow) : (groupNames rows).Nodup := by
  rw [groupNames]
  exact ((List.perm_insertionSort nameLe _).nodup_iff).mpr (List.nodup_dedup _)

/-- A string is a group key exactly when it names some joined row. -/
theorem mem_groupNames {rows : List BillRow} {n : String} :
    n ∈ groupNames rows ↔ n ∈ rows.map (fun r => r.name) := by
  rw [groupNames, List.mem_insertionSort, List.mem_dedup]

/-- The group keys are strictly ascending. -/
theorem groupNames_pairwise (rows : List BillRow) :
    (groupNames rows).Pairwise strLt := by
  have hs : (groupNames rows).Pairwise nameLe := List.sorted_insertionSort nameLe _
  have hn : (groupNames rows).Pairwise (fun a b => a ≠ b) :=
    List.Pairwise.imp (fun h => h) (groupNames_nodup rows)
  exact (hs.and hn).imp (fun h => ⟨h.1, h.2⟩)

/-- The summed series is strictly ascending in its keys. -/
theorem groupPairs_pairwise (rows : List BillRow) :
    (groupPairs rows).Pairwise (fun p q => strLt p.1 q.1) := by
  rw [groupPairs, List.pairwise_map]
  exact groupNames_pairwise rows

/-- Inserting a pair whose key is below every key of a sorted,
lexicographically ascending list keeps the list lexicographically
ascending: this is the stability argument for the ascending argsort. -/
theorem pairwise_lex_orderedInsert (x : String × ℚ) : ∀ l : List (String × ℚ),
    l.Sorted sumLe → l.Pairwise lexAsc → (∀ y ∈ l, strLt x.1 y.1) →
    (List.orderedInsert sumLe x l).Pairwise lexAsc := by
  intro l
  induction l with
  | nil => intro _ _ _; simp
  | cons b t ih =>
    intro hs hp hn
    by_cases hxb : sumLe x b
    · rw [List.orderedInsert_of_le sumLe t hxb]
      constructor
      · intro y hy
        rcases List.mem_cons.mp hy with rfl | hy2
        · rcases lt_or_eq_of_le hxb with h | h
          · exact Or.inl h
          · exact Or.inr ⟨h, hn y (List.mem_cons_self y t)⟩
        · have hby : sumLe b y := List.rel_of_sorted_cons hs y hy2
          rcases lt_or_eq_of_le (le_trans hxb hby) with h | h
          · exact Or.inl h
          · exact Or.inr ⟨h, hn y (List.mem_cons_of_mem b hy2)⟩
      · exact hp
    · rw [show List.orderedInsert sumLe x (b :: t) = b :: List.orderedInsert sumLe x t from by
        simp [List.orderedInsert, hxb]]
      constructor
      · intro y hy
        rcases (List.mem_orderedInsert sumLe).mp hy with rfl | hy2
        · exact Or.inl (lt_of_not_le hxb)
        · exact (List.pairwise_cons.mp hp).1 y hy2
      · exact ih hs.of_cons hp.of_cons (fun y hy => hn y (List.mem_cons_of_mem b hy))

/-- Insertion sorting by summed units a list with strictly ascending
keys produces a lexicographically ascending list (stability). -/
theorem pairwise_lex_insertionSort : ∀ l : List (String × ℚ),
    l.Pairwise (fun p q => strLt p.1 q.1) →
    (List.insertionSort sumLe l).Pairwise lexAsc := by
  intro l
  induction l with
  | nil => intro _; simp
  | cons x t ih =>
    intro hp
    rw [show List.insertionSort sumLe (x :: t) =
        List.orderedInsert sumLe x (List.insertionSort sumLe t) from rfl]
    apply pairwise_lex_orderedInsert
    · exact List.sorted_insertionSort sumLe t
    · exact ih hp.of_cons
    · intro y hy
      rw [List.mem_insertionSort] at hy
      exact (List.pairwise_cons.mp hp).1 y hy

/-- The fully sorted, reversed series is lexicographically
descending. -/
theorem rev_sorted_pairwise (rows : List BillRow) :
    ((List.insertionSort sumLe (groupPairs rows)).reverse).Pairwise lexDesc := by
  rw [List.pairwise_reverse]
  exact (pairwise_lex_insertionSort _ (groupPairs_pairwise rows)).imp (fun h => h)

/-- The top-consumer list is descending by summed units, with ties
descending by name. -/
theorem topConsumersList_lexDesc (rows : List BillRow) :
    (topConsumersList rows).Pairwise lexDesc :=
  (rev_sorted_pairwise rows).sublist (List.take_sublist 5 _)

/-- The top-consumer list keeps `min 5` of the group count. -/
theorem topConsumersList_length (rows : List BillRow) :
    (topConsumersList rows).length = min 5 (groupNames rows).length := by
  rw [topConsumersList, List.length_take, List.length_reverse,
    (List.perm_insertionSort sumLe (groupPairs rows)).length_eq, groupPairs,
    List.length_map]

/-- Every kept pair is a group key with the units total of its
group. -/
theorem topConsumersList_mem (rows : List BillRow) :
    ∀ p ∈ topConsumersList rows,
      p.1 ∈ rows.map (fun r => r.name) ∧ p.2 = groupSum rows p.1 := by
  intro p hp
  have h1 : p ∈ groupPairs rows := by
    have h2 := List.mem_of_mem_take hp
    rw [List.mem_reverse, List.mem_insertionSort] at h2
    exact h2
  rcases List.mem_map.mp h1 with ⟨n, hn, rfl⟩
  exact ⟨mem_groupNames.mp hn, rfl⟩

/-- The kept names are distinct. -/
theorem topConsumersList_nodup (rows : List BillRow) :
    ((topConsumersList rows).map Prod.fst).Nodup := by
  have h1 : (groupPairs rows).map Prod.fst = groupNames rows := by
    simp only [groupPairs, List.map_map]
    exact List.map_id (groupNames rows)
  have h2 : (((List.insertionSort sumLe (groupPairs rows)).reverse).map Prod.fst).Nodup := by
    rw [List.map_reverse, List.nodup_reverse]
    exact (((List.perm_insertionSort sumLe (groupPairs rows)).map Prod.fst).nodup_iff).mpr
      (h1 ▸ groupNames_nodup rows)
  rw [topConsumersList, List.map_take]
  exact h2.sublist (List.take_sublist 5 _)

/-- Every group key that is not kept has a units total bounded by
every kept total: the list really is a top-5 selection. -/
theorem topConsumersList_dom (rows : List BillRow) :
    ∀ n ∈ groupNames rows, n ∉ (topConsumersList rows).map Prod.fst →
      ∀ p ∈ topConsumersList rows, groupSum rows n ≤ p.2 := by
  intro n hn hnot p hp
  have hfull : (n, groupSum rows n) ∈ (List.insertionSort sumLe (groupPairs rows)).reverse := by
    rw [List.mem_reverse, List.mem_insertionSort, groupPairs]
    exact List.mem_map.mpr ⟨n, hn, rfl⟩
  have hpw := rev_sorted_pairwise rows
  rw [← List.take_append_drop 5
    ((List.insertionSort sumLe (groupPairs rows)).reverse)] at hpw hfull
  rcases List.mem_append.mp hfull with hin | hin
  · exact absurd (List.mem_map_of_mem Prod.fst hin) hnot
  · have hrel : lexDesc p (n, groupSum rows n) :=
      (List.pairwise_append.mp hpw).2.2 p hp _ hin
    rcases hrel with h | h
    · exact le_of_lt h
    · exact le_of_eq h.1

end EBSys

namespace EBSys

/-! ## Claim C1 -/

/-- C1: for every client, start and end date such that the readings of
the client in the period, ordered ascending by date, are exactly
[100, 135], `generate_bill` persists a bill with units 35.00, amount
175.00 (units times the fixed rate 5.0, each rounded to two decimals)
and status Unpaid, and reports no error. -/
theorem generate_bill_two_readings (db : DB) (cid : Nat) (sd ed : String)
    (h : matchingReadings db cid sd ed = [100, 135]) :
    generate_bill db cid sd ed =
      ({ db with
          bills := db.bills ++ [⟨db.nextBillId, cid, sd, ed, 35, 175, "Unpaid"⟩],
          nextBillId := db.nextBillId + 1 }, none) := by
  have hu : round2 ((135 : ℚ) - 100) = 35 := by
    rw [round2_eq ((135 : ℚ) - 100) 3500 (by norm_num)]
    norm_num
  have ha : round2 ((35 : ℚ) * rate) = 175 := by
    rw [round2_eq ((35 : ℚ) * rate) 17500 (by norm_num [rate])]
    norm_num
  simp only [generate_bill, h, List.getLast, hu, ha]

/-- Concrete store for the C1 witness: one client with two readings in
the billing period. -/
def wdbC1 : DB :=
  ⟨[⟨1, "Alice", "MTR1", "12 A Street", "0123456789"⟩],
   [⟨1, 1, "2024-01-01", 100⟩, ⟨2, 1, "2024-01-15", 135⟩],
   [], 2, 3, 1⟩

/-- Witness for C1 at a concrete store. -/
theorem generate_bill_two_readings_witness :
    generate_bill wdbC1 1 "2024-01-01" "2024-01-31" =
      ({ wdbC1 with
          bills := wdbC1.bills ++
            [⟨wdbC1.nextBillId, 1, "2024-01-01", "2024-01-31", 35, 175, "Unpaid"⟩],
          nextBillId := wdbC1.nextBillId + 1 }, none) :=
  generate_bill_two_readings wdbC1 1 "2024-01-01" "2024-01-31" (by decide)

/-! ## Claim C2 -/

/-- C2: whenever fewer than two readings of the client fall in the
period, `generate_bill` reports the insufficient-data error and leaves
the store, in particular the bills table, unchanged. -/
theorem generate_bill_insufficient (db : DB) (cid : Nat) (sd ed : String)
    (h : (matchingReadings db cid sd ed).length < 2) :
    generate_bill db cid sd ed = (db, some EBError.insufficientDataError) := by
  rcases he : matchingReadings db cid sd ed with _ | ⟨a, _ | ⟨b, t⟩⟩
  · simp [generate_bill, he]
  · simp [generate_bill, he]
  · rw [he] at h
    simp only [List.length_cons] at h
    omega

/-- Witness for C2 at the empty store. -/
theorem generate_bill_insufficient_witness :
    generate_bill initDB 1 "2024-01-01" "2024-01-31" =
      (initDB, some EBError.insufficientDataError) :=
  generate_bill_insufficient initDB 1 "2024-01-01" "2024-01-31" (by decide)

/-! ## Claim C3 -/

/-- Ten Arabic-Indic digits, each in the Unicode Nd category but none
an ASCII digit. -/
def arabicPhone : String :=
  "٠١٢٣٤٥٦٧٨٩"

/-- Counterexample for C3: registration succeeds on a ten-character
phone string none of whose characters is an ASCII digit, because the
Python class `\d` also matches the other Unicode decimal digits. -/
theorem add_client_unicode_phone_cex :
    (add_client initDB "Omar" "MTR9" "9 B Road" arabicPhone).2 = none ∧
    arabicPhone.data.all Char.isDigit = false ∧
    arabicPhone.data.length = 10 :=
  ⟨by decide, by decide, by decide⟩

/-- C3 (amended): `add_client` avoids the phone-validation failure
exactly when the phone consists of exactly ten Unicode decimal digits
(the characters matched by the Python class `\d`); any other phone
string is rejected with the validation error and the store is
unchanged. -/
theorem add_client_phone_validation (db : DB) (n m a p : String) :
    ((add_client db n m a p).2 ≠ some EBError.validationError ↔
      p.data.length = 10 ∧ ∀ c ∈ p.data, isPyDigit c = true) ∧
    (¬ (p.data.length = 10 ∧ ∀ c ∈ p.data, isPyDigit c = true) →
      add_client db n m a p = (db, some EBError.validationError)) := by
  by_cases hv : validate_phone p = true
  · have hch := (validate_phone_iff p).mp hv
    refine ⟨⟨fun _ => hch, fun _ => ?_⟩, fun hno => absurd hch hno⟩
    simp only [add_client, if_pos hv]
    by_cases hc : db.clients.any (fun c => c.meter_no == m) = true
    · rw [if_pos hc]
      exact fun h => EBError.noConfusion (Option.some.inj h)
    · rw [if_neg hc]
      exact fun h => Option.noConfusion h
  · have hch : ¬ (p.data.length = 10 ∧ ∀ c ∈ p.data, isPyDigit c = true) := by
      intro hc
      exact hv ((validate_phone_iff p).mpr hc)
    have heq : add_client db n m a p = (db, some EBError.validationError) := by
      simp only [add_client, if_neg hv]
    refine ⟨⟨fun hne => ?_, fun hc => absurd hc hch⟩, fun _ => heq⟩
    exact absurd (by rw [heq]) hne

/-! ## Claim C4 -/

/-- Registration on a store that already holds the meter number fails
with the conflict error and changes nothing. -/
theorem add_client_conflict (db : DB) (n m a p : String)
    (hp : validate_phone p = true)
    (hc : db.clients.any (fun c => c.meter_no == m) = true) :
    add_client db n m a p = (db, some EBError.conflictError) := by
  simp only [add_client, if_pos hp, if_pos hc]

/-- C4: after a registration with meter number `m` succeeded, a second
registration with the same meter number (and a phone that passes the
validation loop) fails with the conflict error and leaves the store,
in particular the client count, unchanged. -/
theorem add_client_duplicate_meter (db : DB) (n₁ m a₁ p₁ n₂ a₂ p₂ : String)
    (h₁ : (add_client db n₁ m a₁ p₁).2 = none)
    (hp : validate_phone p₂ = true) :
    add_client (add_client db n₁ m a₁ p₁).1 n₂ m a₂ p₂ =
      ((add_client db n₁ m a₁ p₁).1, some EBError.conflictError) ∧
    (add_client (add_client db n₁ m a₁ p₁).1 n₂ m a₂ p₂).1.clients.length =
      (add_client db n₁ m a₁ p₁).1.clients.length := by
  by_cases hv : validate_phone p₁ = true
  · by_cases hc : db.clients.any (fun c => c.meter_no == m) = true
    · simp [add_client, hv, hc] at h₁
    · have hmem : (⟨db.nextClientId, n₁, m, a₁, p₁⟩ : Client) ∈
          (add_client db n₁ m a₁ p₁).1.clients := by
        simp only [add_client, if_pos hv, if_neg hc]
        exact List.mem_append_right _ (List.mem_singleton.mpr rfl)
      have hany : (add_client db n₁ m a₁ p₁).1.clients.any
          (fun c => c.meter_no == m) = true := by
        rw [List.any_eq_true]
        exact ⟨_, hmem, by simp⟩
      have heq := add_client_conflict (add_client db n₁ m a₁ p₁).1 n₂ m a₂ p₂ hp hany
      exact ⟨heq, by rw [heq]⟩
  · simp [add_client, hv] at h₁

/-- Witness for C4 at a concrete store. -/
theorem add_client_duplicate_meter_witness :
    add_client (add_client initDB "Alice" "MTR1" "12 A Street" "0123456789").1
        "Bob" "MTR1" "3 C Lane" "9876543210" =
      ((add_client initDB "Alice" "MTR1" "12 A Street" "0123456789").1,
        some EBError.conflictError) ∧
    (add_client (add_client initDB "Alice" "MTR1" "12 A Street" "0123456789").1
        "Bob" "MTR1" "3 C Lane" "9876543210").1.clients.length =
      (add_client initDB "Alice" "MTR1" "12 A Street" "0123456789").1.clients.length :=
  add_client_duplicate_meter initDB "Alice" "MTR1" "12 A Street" "0123456789"
    "Bob" "3 C Lane" "9876543210" (by decide) (by decide)

end EBSys

namespace EBSys

/-! ## Claim C7 -/

/-- C7: removing a client by an id that no client row carries fails
with the not-found error and leaves the store unchanged. -/
theorem remove_client_not_found (db : DB) (cid : Nat) (confirm : String)
    (h : ∀ c ∈ db.clients, c.id ≠ cid) :
    remove_client db cid confirm = (db, some EBError.notFoundError) := by
  have hany : ¬ db.clients.any (fun c => c.id == cid) = true := by
    intro hany
    rcases List.any_eq_true.mp hany with ⟨c, hc, hcid⟩
    exact h c hc (beq_iff_eq.mp hcid)
  unfold remove_client
  rw [if_neg hany]

/-- Witness for C7 at the empty store. -/
theorem remove_client_not_found_witness :
    remove_client initDB 1 "y" = (initDB, some EBError.notFoundError) :=
  remove_client_not_found initDB 1 "y" (by decide)

/-! ## Claim C8 -/

/-- C8: removing a present id with confirmation deletes exactly the
rows of that id from the clients table and nothing else: readings and
bills are untouched and every other client row survives. -/
theorem remove_client_deletes_only_client (db : DB) (cid : Nat)
    (h : ∃ c ∈ db.clients, c.id = cid) :
    remove_client db cid "y" =
      ({ db with clients := db.clients.filter (fun c => c.id != cid) }, none) ∧
    (remove_client db cid "y").1.readings = db.readings ∧
    (remove_client db cid "y").1.bills = db.bills ∧
    (∀ c : Client, c ∈ (remove_client db cid "y").1.clients ↔
      c ∈ db.clients ∧ c.id ≠ cid) := by
  rcases h with ⟨c₀, hc₀, hid⟩
  have hany : db.clients.any (fun c => c.id == cid) = true :=
    List.any_eq_true.mpr ⟨c₀, hc₀, beq_iff_eq.mpr hid⟩
  have hy : pyLower "y" = "y" := rfl
  have heq : remove_client db cid "y" =
      ({ db with clients := db.clients.filter (fun c => c.id != cid) }, none) := by
    unfold remove_client
    rw [if_pos hany, if_pos hy]
  refine ⟨heq, by rw [heq], by rw [heq], ?_⟩
  intro c
  rw [heq]
  simp only [List.mem_filter, bne_iff_ne]

/-- Concrete store for the C8 witness: two clients, one reading and
one bill. -/
def wdbC8 : DB :=
  ⟨[⟨1, "Alice", "MTR1", "12 A Street", "0123456789"⟩,
    ⟨2, "Bob", "MTR2", "3 C Lane", "9876543210"⟩],
   [⟨1, 1, "2024-01-01", 100⟩],
   [⟨1, 1, "2024-01-01", "2024-01-31", 35, 175, "Unpaid"⟩], 3, 2, 2⟩

/-- Witness for C8 at a concrete store. -/
theorem remove_client_deletes_only_client_witness :
    remove_client wdbC8 1 "y" =
      ({ wdbC8 with clients := wdbC8.clients.filter (fun c => c.id != 1) }, none) ∧
    (remove_client wdbC8 1 "y").1.readings = wdbC8.readings ∧
    (remove_client wdbC8 1 "y").1.bills = wdbC8.bills ∧
    (∀ c : Client, c ∈ (remove_client wdbC8 1 "y").1.clients ↔
      c ∈ wdbC8.clients ∧ c.id ≠ 1) :=
  remove_client_deletes_only_client wdbC8 1 (by decide)

/-! ## Claim C10 -/

/-- C10: in every reachable store, every client row carries a phone of
exactly ten Unicode decimal digits: registration inserts only after the
phone passes `validate_phone`, and no operation rewrites a stored
phone. -/
theorem phone_invariant (db : DB) (h : Reachable db) :
    ∀ c ∈ db.clients, c.phone.data.length = 10 ∧ ∀ ch ∈ c.phone.data, isPyDigit ch = true := by
  induction h with
  | init => intro c hc; simp [initDB] at hc
  | addClient db n m a p hr ih =>
    intro c hc
    by_cases hv : validate_phone p = true
    · by_cases hcf : db.clients.any (fun x => x.meter_no == m) = true
      · simp only [add_client, if_pos hv, if_pos hcf] at hc
        exact ih c hc
      · simp only [add_client, if_pos hv, if_neg hcf] at hc
        rcases List.mem_append.mp hc with hc2 | hc2
        · exact ih c hc2
        · rw [List.mem_singleton] at hc2
          subst hc2
          exact (validate_phone_iff p).mp hv
    · simp only [add_client, if_neg hv] at hc
      exact ih c hc
  | removeClient db cid confirm hr ih =>
    intro c hc
    by_cases hany : db.clients.any (fun x => x.id == cid) = true
    · by_cases hcf : pyLower confirm = "y"
      · simp only [remove_client, if_pos hany, if_pos hcf] at hc
        exact ih c (List.mem_of_mem_filter hc)
      · simp only [remove_client, if_pos hany, if_neg hcf] at hc
        exact ih c hc
    · simp only [remove_client, if_neg hany] at hc
      exact ih c hc
  | addReading db cid d v hr ih =>
    intro c hc
    exact ih c hc
  | generateBill db cid sd ed hr ih =>
    intro c hc
    rcases he : matchingReadings db cid sd ed with _ | ⟨a, _ | ⟨b, t⟩⟩ <;>
      simp only [generate_bill, he] at hc <;> exact ih c hc

/-- A store reached by one successful registration. -/
def wdbC10 : DB := (add_client initDB "Alice" "MTR1" "12 A Street" "0123456789").1

/-- Witness for C10 at a concrete reachable store and its one client
row. -/
theorem phone_invariant_witness :
    (⟨1, "Alice", "MTR1", "12 A Street", "0123456789"⟩ : Client).phone.data.length = 10 ∧
    ∀ ch ∈ (⟨1, "Alice", "MTR1", "12 A Street", "0123456789"⟩ : Client).phone.data,
      isPyDigit ch = true :=
  phone_invariant wdbC10
    (Reachable.addClient initDB "Alice" "MTR1" "12 A Street" "0123456789" Reachable.init)
    ⟨1, "Alice", "MTR1", "12 A Street", "0123456789"⟩ (by decide)

/-! ## Claim C9 -/

/-- Concrete store for the C9 counterexample: one reading, no
clients. -/
def cexDB9 : DB := ⟨[], [⟨1, 7, "2024-01-01", 5⟩], [], 1, 2, 1⟩

/-- Counterexample for C9: the report is empty although a reading
exists, because the inner join drops readings whose client id matches
no client row. -/
theorem view_readings_orphan_cex :
    view_readings cexDB9 = [] ∧ cexDB9.readings ≠ [] :=
  ⟨rfl, by decide⟩

/-- C9 (amended): the readings report holds exactly the readings that
have a matching client, each joined with that client name, ordered
ascending by date; it is empty exactly when no reading matches a
client. -/
theorem view_readings_sorted_join (db : DB) :
    (view_readings db).Pairwise rrowDateLe ∧
    (∀ t : RRow, t ∈ view_readings db ↔
      ∃ r ∈ db.readings, ∃ c ∈ db.clients, c.id = r.client_id ∧
        t = ⟨r.id, c.name, r.date, r.reading⟩) ∧
    (view_readings db = [] ↔ ∀ r ∈ db.readings, ∀ c ∈ db.clients, c.id ≠ r.client_id) := by
  have hmem : ∀ t : RRow, t ∈ readingRows db ↔
      ∃ r ∈ db.readings, ∃ c ∈ db.clients, c.id = r.client_id ∧
        t = ⟨r.id, c.name, r.date, r.reading⟩ := by
    intro t
    rw [readingRows, List.mem_flatMap]
    constructor
    · rintro ⟨r, hr, ht⟩
      rcases List.mem_map.mp ht with ⟨c, hc, rfl⟩
      rcases List.mem_filter.mp hc with ⟨hcm, hcid⟩
      exact ⟨r, hr, c, hcm, beq_iff_eq.mp hcid, rfl⟩
    · rintro ⟨r, hr, c, hc, hid, rfl⟩
      exact ⟨r, hr, List.mem_map.mpr ⟨c, List.mem_filter.mpr ⟨hc, beq_iff_eq.mpr hid⟩, rfl⟩⟩
  refine ⟨List.sorted_insertionSort rrowDateLe _, ?_, ?_⟩
  · intro t
    rw [view_readings, List.mem_insertionSort]
    exact hmem t
  · rw [view_readings]
    constructor
    · intro hnil
      have h0 : readingRows db = [] := by
        have hp := List.perm_insertionSort rrowDateLe (readingRows db)
        rw [hnil] at hp
        exact hp.nil_eq.symm
      intro r hr c hc hid
      have hrow : (⟨r.id, c.name, r.date, r.reading⟩ : RRow) ∈ readingRows db :=
        (hmem _).mpr ⟨r, hr, c, hc, hid, rfl⟩
      rw [h0] at hrow
      simp at hrow
    · intro hall
      have h0 : readingRows db = [] := by
        rw [readingRows, List.flatMap_eq_nil_iff]
        intro r hr
        rw [List.map_eq_nil_iff, List.filter_eq_nil_iff]
        intro c hc hbeq
        exact hall r hr c hc (beq_iff_eq.mp hbeq)
      rw [h0]
      rfl

end EBSys

namespace EBSys

/-! ## Claim C5 -/

/-- Concrete store for the C5 counterexample: one bill, no clients. -/
def cexDB5 : DB := ⟨[], [], [⟨1, 1, "2024-01-01", "2024-02-01", 10, 50, "Unpaid"⟩], 1, 1, 2⟩

/-- Counterexample for C5: the bills table is non-empty, yet the
analysis reports no data and produces no totals at all, because the
inner join drops bills whose client id matches no client row. -/
theorem show_analysis_orphan_cex :
    show_analysis cexDB5 = none ∧ cexDB5.bills ≠ [] :=
  ⟨rfl, by decide⟩

/-- C5 (amended): when the bills table is non-empty and every bill has
exactly one matching client, the analysis yields the sum of units, the
sum of amounts, the mean of units and the maximum of units over all
bills. -/
theorem show_analysis_totals (db : DB)
    (hne : db.bills ≠ [])
    (hj : ∀ b ∈ db.bills, (db.clients.filter (fun c => c.id == b.client_id)).length = 1) :
    ∃ a, show_analysis db = some a ∧
      a.totalUnits = (db.bills.map (fun b => b.units)).sum ∧
      a.totalAmount = (db.bills.map (fun b => b.amount)).sum ∧
      a.avgUnits = (db.bills.map (fun b => b.units)).sum / (db.bills.length : ℚ) ∧
      a.maxUnits ∈ db.bills.map (fun b => b.units) ∧
      ∀ u ∈ db.bills.map (fun b => b.units), u ≤ a.maxUnits := by
  have hpairs := billRows_pairs db hj
  have hunits : (billRows db).map (fun r => r.units) = db.bills.map (fun b => b.units) := by
    have h2 := congrArg (List.map Prod.fst) hpairs
    simpa [List.map_map, Function.comp] using h2
  have hamounts : (billRows db).map (fun r => r.amount) = db.bills.map (fun b => b.amount) := by
    have h2 := congrArg (List.map Prod.snd) hpairs
    simpa [List.map_map, Function.comp] using h2
  have hlen : (billRows db).length = db.bills.length := by
    have h2 := congrArg List.length hpairs
    simpa using h2
  have hbne : billRows db ≠ [] := by
    intro h0
    apply hne
    rw [h0] at hlen
    have h3 : db.bills.length = 0 := by simpa using hlen.symm
    exact List.length_eq_zero.mp h3
  rcases he : billRows db with _ | ⟨r, rest⟩
  · exact absurd he hbne
  · rw [he] at hunits hamounts hlen
    have hsa : show_analysis db = some
        { totalUnits := ((r :: rest).map (fun x => x.units)).sum
          totalAmount := ((r :: rest).map (fun x => x.amount)).sum
          avgUnits := ((r :: rest).map (fun x => x.units)).sum /
            (((r :: rest).map (fun x => x.units)).length : ℚ)
          maxUnits := (rest.map (fun x => x.units)).foldl max r.units
          topConsumers := topConsumersList (r :: rest) } := by
      simp only [show_analysis, he]
    refine ⟨_, hsa, ?_, ?_, ?_, ?_, ?_⟩
    · exact congrArg List.sum hunits
    · exact congrArg List.sum hamounts
    · show ((r :: rest).map (fun x => x.units)).sum /
          (((r :: rest).map (fun x => x.units)).length : ℚ) =
        (db.bills.map (fun b => b.units)).sum / (db.bills.length : ℚ)
      rw [hunits, List.length_map]
    · have hm := foldl_max_mem r.units (rest.map (fun x => x.units))
      rw [show (r.units :: rest.map (fun x => x.units)) =
          (r :: rest).map (fun x => x.units) from rfl, hunits] at hm
      exact hm
    · intro u hu
      have hu2 : u ∈ r.units :: rest.map (fun x => x.units) := by
        rw [show (r.units :: rest.map (fun x => x.units)) =
            (r :: rest).map (fun x => x.units) from rfl, hunits]
        exact hu
      exact le_foldl_max r.units (rest.map (fun x => x.units)) u hu2

/-- Concrete store for the C5 witness: the bills (A, 10), (B, 20),
(A, 5) of the specification example. -/
def wdbC5 : DB :=
  ⟨[⟨1, "A", "MTRA", "1 A Street", "0123456789"⟩,
    ⟨2, "B", "MTRB", "2 B Street", "0123456789"⟩],
   [],
   [⟨1, 1, "2024-01-01", "2024-01-31", 10, 50, "Unpaid"⟩,
    ⟨2, 2, "2024-01-01", "2024-01-31", 20, 100, "Unpaid"⟩,
    ⟨3, 1, "2024-02-01", "2024-02-28", 5, 25, "Unpaid"⟩],
   3, 1, 4⟩

/-- Witness for C5 at the example store. -/
theorem show_analysis_totals_witness :
    ∃ a, show_analysis wdbC5 = some a ∧
      a.totalUnits = (wdbC5.bills.map (fun b => b.units)).sum ∧
      a.totalAmount = (wdbC5.bills.map (fun b => b.amount)).sum ∧
      a.avgUnits = (wdbC5.bills.map (fun b => b.units)).sum / (wdbC5.bills.length : ℚ) ∧
      a.maxUnits ∈ wdbC5.bills.map (fun b => b.units) ∧
      ∀ u ∈ wdbC5.bills.map (fun b => b.units), u ≤ a.maxUnits :=
  show_analysis_totals wdbC5 (by decide) (by decide)

/-! ## Claim C6 -/

/-- Concrete store for the C6 counterexample: two clients A and B,
each with one bill of 10 units. -/
def cexDB6 : DB :=
  ⟨[⟨1, "A", "MTRA", "1 A Street", "0123456789"⟩,
    ⟨2, "B", "MTRB", "2 B Street", "0123456789"⟩],
   [],
   [⟨1, 1, "2024-01-01", "2024-01-31", 10, 50, "Unpaid"⟩,
    ⟨2, 2, "2024-01-01", "2024-01-31", 10, 50, "Unpaid"⟩],
   3, 1, 3⟩

/-- Counterexample for C6: the groups are A then B (ascending by
name) and tie at 10 summed units, yet the produced list is
[(B, 10), (A, 10)]: the reversed ascending argsort of pandas breaks
ties in the reverse of the grouping order, not in the stable grouping
order, which would give [(A, 10), (B, 10)]. -/
theorem show_analysis_tie_cex :
    show_analysis cexDB6 = some ⟨20, 100, 10, 10, [("B", 10), ("A", 10)]⟩ ∧
    ([(("B" : String), (10 : ℚ)), ("A", 10)] ≠ [("A", 10), ("B", 10)]) := by
  have he : billRows cexDB6 = [⟨"A", 10, 50⟩, ⟨"B", 10, 50⟩] := by decide
  have hBA : (("B" : String) == "A") = false := by decide
  have hAA : (("A" : String) == "A") = true := by decide
  have hAB : (("A" : String) == "B") = false := by decide
  have hBB : (("B" : String) == "B") = true := by decide
  have hgn : groupNames [(⟨"A", 10, 50⟩ : BillRow), ⟨"B", 10, 50⟩] = ["A", "B"] := by decide
  have hsA : groupSum [(⟨"A", 10, 50⟩ : BillRow), ⟨"B", 10, 50⟩] "A" = 10 := by
    simp [groupSum, List.filter, hBA, hAA]
  have hsB : groupSum [(⟨"A", 10, 50⟩ : BillRow), ⟨"B", 10, 50⟩] "B" = 10 := by
    simp [groupSum, List.filter, hAB, hBB]
  have hgp : groupPairs [(⟨"A", 10, 50⟩ : BillRow), ⟨"B", 10, 50⟩] =
      [("A", 10), ("B", 10)] := by
    rw [groupPairs, hgn]
    simp [hsA, hsB]
  have hle : sumLe (("A" : String), (10 : ℚ)) ("B", 10) := le_refl (10 : ℚ)
  have hsort : List.insertionSort sumLe [(("A" : String), (10 : ℚ)), ("B", 10)] =
      [(("A" : String), (10 : ℚ)), ("B", 10)] := by
    simp [List.insertionSort, List.orderedInsert, hle]
  have htop : topConsumersList [(⟨"A", 10, 50⟩ : BillRow), ⟨"B", 10, 50⟩] =
      [("B", 10), ("A", 10)] := by
    rw [topConsumersList, hgp, hsort]
    rfl
  constructor
  · simp only [show_analysis, he]
    refine congrArg some ?_
    simp only [Analysis.mk.injEq]
    refine ⟨by norm_num, by norm_num, by norm_num, by norm_num, htop⟩
  · decide

/-- C6 (amended): on a non-empty joined frame, the top-consumer list
keeps `min 5` of the name groups; it is sorted descending by summed
units with ties descending by name (the reverse of the ascending-name
grouping order); its names are distinct group keys; each kept pair
carries the units total of its group; and every group that is not kept
totals at most every kept pair. -/
theorem show_analysis_topConsumers (db : DB) (hne : billRows db ≠ []) :
    ∃ a, show_analysis db = some a ∧
      a.topConsumers.length = min 5 (groupNames (billRows db)).length ∧
      a.topConsumers.Pairwise lexDesc ∧
      (a.topConsumers.map Prod.fst).Nodup ∧
      (∀ p ∈ a.topConsumers,
        p.1 ∈ (billRows db).map (fun r => r.name) ∧ p.2 = groupSum (billRows db) p.1) ∧
      (∀ n ∈ groupNames (billRows db), n ∉ a.topConsumers.map Prod.fst →
        ∀ p ∈ a.topConsumers, groupSum (billRows db) n ≤ p.2) := by
  rcases he : billRows db with _ | ⟨r, rest⟩
  · exact absurd he hne
  · have hsa : show_analysis db = some
        { totalUnits := ((r :: rest).map (fun x => x.units)).sum
          totalAmount := ((r :: rest).map (fun x => x.amount)).sum
          avgUnits := ((r :: rest).map (fun x => x.units)).sum /
            (((r :: rest).map (fun x => x.units)).length : ℚ)
          maxUnits := (rest.map (fun x => x.units)).foldl max r.units
          topConsumers := topConsumersList (r :: rest) } := by
      simp only [show_analysis, he]
    refine ⟨_, hsa, ?_, ?_, ?_, ?_, ?_⟩
    · exact topConsumersList_length (r :: rest)
    · exact topConsumersList_lexDesc (r :: rest)
    · exact topConsumersList_nodup (r :: rest)
    · exact topConsumersList_mem (r :: rest)
    · exact topConsumersList_dom (r :: rest)

/-- Concrete store for the C6 witness: three bills over two clients. -/
def wdbC6 : DB :=
  ⟨[⟨1, "A", "MTRA", "1 A Street", "0123456789"⟩,
    ⟨2, "B", "MTRB", "2 B Street", "0123456789"⟩],
   [],
   [⟨1, 1, "2024-01-01", "2024-01-31", 10, 50, "Unpaid"⟩,
    ⟨2, 2, "2024-01-01", "2024-01-31", 20, 100, "Unpaid"⟩,
    ⟨3, 1, "2024-02-01", "2024-02-28", 5, 25, "Unpaid"⟩],
   3, 1, 4⟩

/-- Witness for C6 at a concrete store. -/
theorem show_analysis_topConsumers_witness :
    ∃ a, show_analysis wdbC6 = some a ∧
      a.topConsumers.length = min 5 (groupNames (billRows wdbC6)).length ∧
      a.topConsumers.Pairwise lexDesc ∧
      (a.topConsumers.map Prod.fst).Nodup ∧
      (∀ p ∈ a.topConsumers,
        p.1 ∈ (billRows wdbC6).map (fun r => r.name) ∧ p.2 = groupSum (billRows wdbC6) p.1) ∧
      (∀ n ∈ groupNames (billRows wdbC6), n ∉ a.topConsumers.map Prod.fst →
        ∀ p ∈ a.topConsumers, groupSum (billRows wdbC6) n ≤ p.2) :=
  show_analysis_topConsumers wdbC6 (by decide)

end EBSys
